import Mathlib

/-!
Verification of the `mytar.py` archive codec.

The archive format (repeated until end of stream):
  [4 bytes] filename length (big-endian unsigned int)
  [N bytes] filename (UTF-8)
  [8 bytes] file size (big-endian unsigned int)
  [M bytes] file contents

Modelling conventions, all translated from `src/mytar.py`:
- A byte stream (stdin, stdout, or an open file's readable contents) is a
  `List Nat` consumed front to back.
- `os.read(fd, count)` may deliver fewer bytes than requested.  Every read
  loop therefore takes a schedule `sched : Nat → Nat` giving, per loop
  iteration, how many bytes the kernel chooses to deliver; the actual
  delivery is clamped to `min count (min available (max (sched i) 1))`, so a
  read with `count > 0` on a non-exhausted stream delivers between 1 and
  `count` bytes, and delivers 0 bytes exactly at end of stream (POSIX read
  semantics).  Theorems quantify over all schedules.
- Python `while` loops are written with an explicit fuel argument that
  decreases by one per iteration; since every iteration of the loops in the
  source consumes at least one byte of `remaining`, fuel `≥ remaining`
  makes the fuel bound unreachable, and every lemma below is stated under
  (or instantiated with) such a fuel.
- `die(msg); sys.exit(1)` and the file-handle bookkeeping are observable
  behaviour, so the encoder and the decoder produce traces of events
  (writes, opens, closes, die) rather than just result values.
-/

namespace Mytar

/-- BUF_SIZE = 4096, the fixed chunk size of both content-transfer loops. -/
def BUF_SIZE : Nat := 4096

/-- Big-endian fixed-width byte encoding: `n.to_bytes(k, 'big')` for
`n < 256^k` (Python raises OverflowError above that; this model truncates,
and every theorem that depends on the value carries the bound). -/
def toBytesBE : Nat → Nat → List Nat
  | 0, _ => []
  | k + 1, n => toBytesBE k (n / 256) ++ [n % 256]

/-- Big-endian byte decoding: `int.from_bytes(bs, 'big')` (unsigned). -/
def fromBytesBE (bs : List Nat) : Nat :=
  bs.foldl (fun acc b => acc * 256 + b) 0

/-- One `os.read(fd, count)` call on a stream: the kernel delivers
`min count (min s.length (max k 1))` bytes where `k` is the kernel's
choice; result is (bytes delivered, rest of stream). -/
def osRead (k : Nat) (s : List Nat) (count : Nat) : List Nat × List Nat :=
  let t := min count (min s.length (max k 1))
  (s.take t, s.drop t)

/-- Loop body of `read_exact` (mytar.py lines 25-35): keep reading until
`remaining` bytes are collected or a read returns no bytes (EOF).  `fuel`
bounds the iteration count; `fuel ≥ remaining` suffices because each
iteration delivers at least one byte. -/
def read_exact_go (sched : Nat → Nat) : Nat → Nat → List Nat → Nat → List Nat × List Nat
  | 0, _, s, _ => ([], s)
  | fuel + 1, i, s, remaining =>
    if remaining = 0 then ([], s)
    else if s.length = 0 then ([], s)
    else
      let t := min remaining (min s.length (max (sched i) 1))
      let r := read_exact_go sched fuel (i + 1) (s.drop t) (remaining - t)
      (s.take t ++ r.1, r.2)

/-- `read_exact(fd, n)`: read exactly `n` bytes from the stream, or fewer
if EOF is hit first.  Returns (bytes read, rest of stream). -/
def read_exact (sched : Nat → Nat) (s : List Nat) (n : Nat) : List Nat × List Nat :=
  read_exact_go sched n 0 s n

/-- The content-transfer loop shared (textually identical) by
`create_archive` (lines 64-71) and `extract_archive` (lines 117-124):
`remaining = size; while remaining > 0: chunk = os.read(fd, min(BUF_SIZE, remaining));
if not chunk: fail; write(chunk); remaining -= len(chunk)`.
Returns (chunks written in order, rest of the source stream, EOF-failure flag). -/
def copyLoop (sched : Nat → Nat) : Nat → Nat → List Nat → Nat → List (List Nat) × List Nat × Bool
  | 0, _, src, _ => ([], src, false)
  | fuel + 1, i, src, remaining =>
    if remaining = 0 then ([], src, false)
    else
      let count := min BUF_SIZE remaining
      let t := min count (min src.length (max (sched i) 1))
      if src.length = 0 then ([], src, true)
      else
        let r := copyLoop sched fuel (i + 1) (src.drop t) (remaining - t)
        (src.take t :: r.1, r.2.1, r.2.2)

/-- Check whether a byte satisfies the UTF-8 continuation-byte shape
(0x80-0xBF). -/
def utf8Cont (b : Nat) : Bool := 128 ≤ b && b ≤ 191

/-- Validity of a byte sequence as UTF-8 (RFC 3629: no overlong forms, no
surrogates, max U+10FFFF) — exactly the byte sequences Python's strict
`bytes.decode('utf-8')` (mytar.py line 98) accepts. -/
def validUtf8 : List Nat → Bool
  | [] => true
  | b :: rest =>
    if b ≤ 127 then validUtf8 rest
    else if 194 ≤ b && b ≤ 223 then
      match rest with
      | b1 :: r => utf8Cont b1 && validUtf8 r
      | [] => false
    else if b = 224 then
      match rest with
      | b1 :: b2 :: r => (160 ≤ b1 && b1 ≤ 191) && utf8Cont b2 && validUtf8 r
      | _ => false
    else if 225 ≤ b && b ≤ 236 then
      match rest with
      | b1 :: b2 :: r => utf8Cont b1 && utf8Cont b2 && validUtf8 r
      | _ => false
    else if b = 237 then
      match rest with
      | b1 :: b2 :: r => (128 ≤ b1 && b1 ≤ 159) && utf8Cont b2 && validUtf8 r
      | _ => false
    else if 238 ≤ b && b ≤ 239 then
      match rest with
      | b1 :: b2 :: r => utf8Cont b1 && utf8Cont b2 && validUtf8 r
      | _ => false
    else if b = 240 then
      match rest with
      | b1 :: b2 :: b3 :: r =>
        (144 ≤ b1 && b1 ≤ 191) && utf8Cont b2 && utf8Cont b3 && validUtf8 r
      | _ => false
    else if 241 ≤ b && b ≤ 243 then
      match rest with
      | b1 :: b2 :: b3 :: r =>
        utf8Cont b1 && utf8Cont b2 && utf8Cont b3 && validUtf8 r
      | _ => false
    else if b = 244 then
      match rest with
      | b1 :: b2 :: b3 :: r =>
        (128 ≤ b1 && b1 ≤ 143) && utf8Cont b2 && utf8Cont b3 && validUtf8 r
      | _ => false
    else false

/-- A source file as the encoder sees it: the UTF-8 bytes of its path
(`name.encode('utf-8')`, line 54), the size reported by `os.fstat`
(line 53), and the bytes actually deliverable by reading its descriptor.
When the file is not modified concurrently, `statSize = data.length`. -/
structure SrcFile where
  name : List Nat
  statSize : Nat
  data : List Nat
  deriving DecidableEq

/-- Fatal encoder errors (`die` calls reachable from the streaming part of
`create_archive`); `unexpectedEofReading` carries the path named by the
diagnostic `f"unexpected EOF reading '{name}'"` (line 69). -/
inductive CErr where
  | unexpectedEofReading (name : List Nat)
  deriving DecidableEq

/-- Observable encoder events: opening a source file, `os.write(1, bs)`,
`os.close(fd)`, and `die`. -/
inductive EncEv where
  | evOpen (name : List Nat)
  | evWrite (bs : List Nat)
  | evClose
  | evDie (e : CErr)
  deriving DecidableEq

/-- Encoding of one file (loop body of `create_archive`, lines 41-73):
header writes, then the content-transfer loop, then close (and `die` if the
source hit EOF early).  Returns (event trace, failed flag). -/
def encodeEntry (sched : Nat → Nat) (f : SrcFile) : List EncEv × Bool :=
  let r := copyLoop sched f.statSize 0 f.data f.statSize
  ([EncEv.evOpen f.name,
    EncEv.evWrite (toBytesBE 4 f.name.length),
    EncEv.evWrite f.name,
    EncEv.evWrite (toBytesBE 8 f.statSize)]
    ++ r.1.map EncEv.evWrite
    ++ (if r.2.2 then [EncEv.evClose, EncEv.evDie (CErr.unexpectedEofReading f.name)]
        else [EncEv.evClose]),
   r.2.2)

/-- `create_archive(filenames)` (lines 38-73): encode each file in order;
`die` terminates the whole process, so a failed entry ends the trace. -/
def create_archive (scheds : Nat → Nat → Nat) : List SrcFile → List EncEv
  | [] => []
  | f :: rest =>
    let r := encodeEntry (scheds 0) f
    if r.2 then r.1
    else r.1 ++ create_archive (fun i => scheds (i + 1)) rest

/-- The bytes an encoder trace writes to stdout, in order. -/
def encWrites : List EncEv → List Nat
  | [] => []
  | EncEv.evWrite bs :: es => bs ++ encWrites es
  | _ :: es => encWrites es

/-- Fatal decoder errors, one per `die` call in `extract_archive`; the
constructor names follow the messages `corrupted archive (...)`. -/
inductive XErr where
  | incompleteNameLen
  | invalidNameLen
  | incompleteName
  | badNameEncoding
  | incompleteSize
  | invalidSize
  | eofInData
  deriving DecidableEq

/-- Observable decoder events: creating an output file
(`os.open(name, O_WRONLY|O_CREAT|O_TRUNC, 0o644)`, line 112),
`os.write(out_fd, bs)`, `os.close(out_fd)`, and `die`. -/
inductive ExtEv where
  | evCreate (name : List Nat)
  | evWriteF (bs : List Nat)
  | evCloseF
  | evDieX (e : XErr)
  deriving DecidableEq

/-- One iteration of the `extract_archive` loop (lines 79-126): parse one
record from the stream.  Returns (events of this iteration, `some rest` to
continue with the rest of the stream, `none` to stop — either normal EOF
or a `die`).  `os.open` of the output file is modelled as succeeding (its
OSError branch depends on the host filesystem, outside the codec). -/
def extractStep (sched : Nat → Nat) (s : List Nat) : List ExtEv × Option (List Nat) :=
  let raw_len := (read_exact sched s 4).1
  if raw_len.length = 0 then ([], none)
  else if raw_len.length < 4 then ([ExtEv.evDieX XErr.incompleteNameLen], none)
  else
    let s1 := (read_exact sched s 4).2
    let name_len := fromBytesBE raw_len
    if name_len ≤ 0 then ([ExtEv.evDieX XErr.invalidNameLen], none)
    else
      let name_bytes := (read_exact sched s1 name_len).1
      let s2 := (read_exact sched s1 name_len).2
      if name_bytes.length < name_len then ([ExtEv.evDieX XErr.incompleteName], none)
      else if validUtf8 name_bytes then
        let raw_size := (read_exact sched s2 8).1
        let s3 := (read_exact sched s2 8).2
        if raw_size.length < 8 then ([ExtEv.evDieX XErr.incompleteSize], none)
        else
          let size := fromBytesBE raw_size
          if (size : Int) < 0 then ([ExtEv.evDieX XErr.invalidSize], none)
          else
            let r := copyLoop sched size 0 s3 size
            if r.2.2 then
              (ExtEv.evCreate name_bytes :: r.1.map ExtEv.evWriteF
                ++ [ExtEv.evCloseF, ExtEv.evDieX XErr.eofInData], none)
            else
              (ExtEv.evCreate name_bytes :: r.1.map ExtEv.evWriteF
                ++ [ExtEv.evCloseF], some r.2.1)
      else ([ExtEv.evDieX XErr.badNameEncoding], none)

/-- The `while True` loop of `extract_archive`, with fuel; each successful
iteration consumes at least 13 bytes of the stream, so fuel
`≥ s.length + 1` is never exhausted. -/
def extractLoop (sched : Nat → Nat) : Nat → List Nat → List ExtEv
  | 0, _ => []
  | fuel + 1, s =>
    match extractStep sched s with
    | (tr, none) => tr
    | (tr, some rest) => tr ++ extractLoop sched fuel rest

/-- `extract_archive()` (lines 76-126) on an input stream. -/
def extract_archive (sched : Nat → Nat) (s : List Nat) : List ExtEv :=
  extractLoop sched (s.length + 1) s

/-- Replay a decoder trace against the filesystem: each `evCreate` creates
(or truncates) a file, each `evWriteF` appends to the most recently created
file; nothing ever deletes a file.  The accumulator holds the files created
so far, most recent first. -/
def fsRun (acc : List (List Nat × List Nat)) : List ExtEv → List (List Nat × List Nat)
  | [] => acc.reverse
  | ExtEv.evCreate name :: es => fsRun ((name, []) :: acc) es
  | ExtEv.evWriteF bs :: es =>
    match acc with
    | (n, c) :: t => fsRun ((n, c ++ bs) :: t) es
    | [] => fsRun [] es
  | _ :: es => fsRun acc es

/-- The files a decoder run leaves on disk, in creation order, with the
bytes written to each. -/
def filesOnDisk (tr : List ExtEv) : List (List Nat × List Nat) :=
  fsRun [] tr

/-- A well-formed encoder input: nonempty path (an empty path cannot be
opened), name short enough for its 4-byte length field, valid UTF-8 name
bytes (Python `str.encode('utf-8')` only produces these), stat size equal
to the readable length (the file is not being modified concurrently), and
size small enough for its 8-byte field. -/
def WF (f : SrcFile) : Prop :=
  f.name ≠ [] ∧ f.name.length < 2 ^ 32 ∧ validUtf8 f.name = true ∧
    f.statSize = f.data.length ∧ f.statSize < 2 ^ 64

instance (f : SrcFile) : Decidable (WF f) := by
  unfold WF; infer_instance

/-! ### Basic facts about the byte-level helpers -/

theorem toBytesBE_length (k n : Nat) : (toBytesBE k n).length = k := by
  induction k generalizing n with
  | zero => rfl
  | succ k ih => simp [toBytesBE, ih]

theorem fromBytesBE_append_one (l : List Nat) (b : Nat) :
    fromBytesBE (l ++ [b]) = fromBytesBE l * 256 + b := by
  simp [fromBytesBE, List.foldl_append]

theorem fromBytesBE_toBytesBE_mod (k n : Nat) :
    fromBytesBE (toBytesBE k n) = n % 256 ^ k := by
  induction k generalizing n with
  | zero => simp [toBytesBE, fromBytesBE, Nat.mod_one]
  | succ k ih =>
    rw [toBytesBE, fromBytesBE_append_one, ih]
    rw [pow_succ, Nat.mul_comm (256 ^ k) 256, Nat.mod_mul]
    ring

theorem fromBytesBE_toBytesBE (k n : Nat) (h : n < 256 ^ k) :
    fromBytesBE (toBytesBE k n) = n := by
  rw [fromBytesBE_toBytesBE_mod, Nat.mod_eq_of_lt h]

/-- The `read_exact` loop assembles exactly the first `remaining` bytes
(or everything, if fewer are available) and leaves the rest, for every
kernel schedule, provided the fuel covers the byte count. -/
theorem read_exact_go_spec (sched : Nat → Nat) (fuel i : Nat) (s : List Nat)
    (remaining : Nat) (h : remaining ≤ fuel) :
    read_exact_go sched fuel i s remaining = (s.take remaining, s.drop remaining) := by
  induction fuel generalizing i s remaining with
  | zero =>
    have : remaining = 0 := Nat.le_zero.mp h
    subst this; simp [read_exact_go]
  | succ fuel ih =>
    rw [read_exact_go]
    by_cases h0 : remaining = 0
    · subst h0; simp
    · rw [if_neg h0]
      by_cases hs : s.length = 0
      · rw [if_pos hs]
        rw [List.length_eq_zero] at hs
        subst hs; simp
      · rw [if_neg hs]
        have hrem : 0 < remaining := Nat.pos_of_ne_zero h0
        have hslen : 0 < s.length := Nat.pos_of_ne_zero hs
        set t := min remaining (min s.length (max (sched i) 1)) with ht
        have htpos : 1 ≤ t := by
          refine le_min hrem (le_min hslen ?_)
          exact le_max_right _ 1
        have htle : t ≤ remaining := min_le_left _ _
        have hfuel : remaining - t ≤ fuel := by omega
        show (s.take t ++ (read_exact_go sched fuel (i + 1) (s.drop t) (remaining - t)).1,
            (read_exact_go sched fuel (i + 1) (s.drop t) (remaining - t)).2)
          = (s.take remaining, s.drop remaining)
        rw [ih (i + 1) (s.drop t) (remaining - t) hfuel]
        simp only [Prod.mk.injEq]
        constructor
        · rw [← List.take_add]
          congr 1
          omega
        · rw [List.drop_drop]
          congr 1
          omega

/-- `read_exact(fd, n)` returns the first `n` bytes of the stream (or all
remaining bytes, if fewer than `n` are available) and consumes them. -/
theorem read_exact_spec (sched : Nat → Nat) (s : List Nat) (n : Nat) :
    read_exact sched s n = (s.take n, s.drop n) :=
  read_exact_go_spec sched n 0 s n (Nat.le_refl n)

/-! ### Facts about the content-transfer loop -/

/-- When the source holds at least `remaining` bytes, the transfer loop
succeeds: the chunks concatenate to the first `remaining` source bytes, the
rest of the source survives, and the failure flag is off. -/
theorem copyLoop_success (sched : Nat → Nat) (fuel i : Nat) (src : List Nat)
    (remaining : Nat) (hfuel : remaining ≤ fuel) (hlen : remaining ≤ src.length) :
    (copyLoop sched fuel i src remaining).1.flatten = src.take remaining ∧
      (copyLoop sched fuel i src remaining).2.1 = src.drop remaining ∧
      (copyLoop sched fuel i src remaining).2.2 = false := by
  induction fuel generalizing i src remaining with
  | zero =>
    have : remaining = 0 := Nat.le_zero.mp hfuel
    subst this; simp [copyLoop]
  | succ fuel ih =>
    rw [copyLoop]
    by_cases h0 : remaining = 0
    · subst h0; simp
    · rw [if_neg h0]
      have hrem : 0 < remaining := Nat.pos_of_ne_zero h0
      have hslen : 0 < src.length := lt_of_lt_of_le hrem hlen
      rw [if_neg (Nat.pos_iff_ne_zero.mp hslen)]
      set t := min (min BUF_SIZE remaining) (min src.length (max (sched i) 1)) with ht
      have htpos : 1 ≤ t := by
        refine le_min (le_min ?_ hrem) (le_min hslen (le_max_right _ 1))
        simp [BUF_SIZE]
      have htle : t ≤ remaining :=
        le_trans (min_le_left _ _) (min_le_right _ _)
      have hfuel2 : remaining - t ≤ fuel := by omega
      have hlen2 : remaining - t ≤ (src.drop t).length := by
        rw [List.length_drop]; omega
      obtain ⟨h1, h2, h3⟩ := ih (i + 1) (src.drop t) (remaining - t) hfuel2 hlen2
      refine ⟨?_, ?_, h3⟩
      · simp only [List.flatten_cons, h1]
        rw [← List.take_add]
        congr 1
        omega
      · simp only [h2, List.drop_drop]
        congr 1
        omega

/-- When the source holds fewer than `remaining` bytes, the transfer loop
fails with the EOF flag after transferring everything the source had. -/
theorem copyLoop_fail (sched : Nat → Nat) (fuel i : Nat) (src : List Nat)
    (remaining : Nat) (hfuel : remaining ≤ fuel) (hlen : src.length < remaining) :
    (copyLoop sched fuel i src remaining).1.flatten = src ∧
      (copyLoop sched fuel i src remaining).2.2 = true := by
  induction fuel generalizing i src remaining with
  | zero =>
    exact absurd (Nat.le_zero.mp hfuel ▸ hlen) (Nat.not_lt_zero _)
  | succ fuel ih =>
    rw [copyLoop]
    have h0 : remaining ≠ 0 := by omega
    rw [if_neg h0]
    by_cases hs : src.length = 0
    · rw [if_pos hs]
      rw [List.length_eq_zero] at hs
      subst hs; simp
    · rw [if_neg hs]
      have hslen : 0 < src.length := Nat.pos_of_ne_zero hs
      set t := min (min BUF_SIZE remaining) (min src.length (max (sched i) 1)) with ht
      have htpos : 1 ≤ t := by
        refine le_min (le_min ?_ ?_) (le_min hslen (le_max_right _ 1))
        · simp [BUF_SIZE]
        · omega
      have htle : t ≤ src.length :=
        le_trans (min_le_right _ _) (min_le_left _ _)
      have hfuel2 : remaining - t ≤ fuel := by omega
      have hlen2 : (src.drop t).length < remaining - t := by
        rw [List.length_drop]; omega
      obtain ⟨h1, h2⟩ := ih (i + 1) (src.drop t) (remaining - t) hfuel2 hlen2
      refine ⟨?_, h2⟩
      simp only [List.flatten_cons, h1]
      exact List.take_append_drop t src

/-- The rest-of-source component of the transfer loop never grows. -/
theorem copyLoop_rest_le (sched : Nat → Nat) (fuel i : Nat) (src : List Nat)
    (remaining : Nat) :
    (copyLoop sched fuel i src remaining).2.1.length ≤ src.length := by
  induction fuel generalizing i src remaining with
  | zero => simp [copyLoop]
  | succ fuel ih =>
    rw [copyLoop]
    by_cases h0 : remaining = 0
    · rw [if_pos h0]
    · rw [if_neg h0]
      by_cases hs : src.length = 0
      · rw [if_pos hs]
      · rw [if_neg hs]
        refine le_trans (ih (i + 1) _ _) ?_
        rw [List.length_drop]
        omega

/-- Every chunk the transfer loop produces fits the fixed buffer: its
length is at most `min BUF_SIZE remaining` for the loop's starting
`remaining`, in particular at most `BUF_SIZE = 4096`. -/
theorem copyLoop_chunk_le (sched : Nat → Nat) (fuel i : Nat) (src : List Nat)
    (remaining : Nat) (c : List Nat) (hc : c ∈ (copyLoop sched fuel i src remaining).1) :
    c.length ≤ min BUF_SIZE remaining := by
  induction fuel generalizing i src remaining with
  | zero => simp [copyLoop] at hc
  | succ fuel ih =>
    rw [copyLoop] at hc
    by_cases h0 : remaining = 0
    · rw [if_pos h0] at hc; simp at hc
    · rw [if_neg h0] at hc
      by_cases hs : src.length = 0
      · rw [if_pos hs] at hc; simp at hc
      · rw [if_neg hs] at hc
        simp only [List.mem_cons] at hc
        rcases hc with hc | hc
        · subst hc
          rw [List.length_take]
          refine le_trans (min_le_left _ _) ?_
          exact le_trans (min_le_left _ _) (le_refl _)
        · refine le_trans (ih (i + 1) _ _ hc) ?_
          exact min_le_min (le_refl _) (Nat.sub_le _ _)

/-! ### The decoder loop: termination and one-step unfolding -/

/-- Whenever `extractStep` asks to continue, it has consumed at least one
byte of the stream (in fact at least 13). -/
theorem extractStep_rest (sched : Nat → Nat) (s : List Nat) (tr : List ExtEv)
    (rest : List Nat) (h : extractStep sched s = (tr, some rest)) :
    rest.length < s.length := by
  simp only [extractStep, read_exact_spec] at h
  split_ifs at h with h1 h2 h3 h4 h5 h6 h7 h8
  all_goals injection h with ha hb
  all_goals try exact Option.noConfusion hb
  injection hb with hX
  subst hX
  have hlen4 : 4 ≤ s.length := by
    rw [List.length_take] at h2
    omega
  refine lt_of_le_of_lt (copyLoop_rest_le _ _ _ _ _) ?_
  simp only [List.length_drop]
  omega

/-- The decoder loop's value does not depend on the fuel, once the fuel
exceeds the stream length. -/
theorem extractLoop_congr (sched : Nat → Nat) (fuel1 : Nat) :
    ∀ fuel2 s, s.length < fuel1 → s.length < fuel2 →
      extractLoop sched fuel1 s = extractLoop sched fuel2 s := by
  induction fuel1 with
  | zero => intro fuel2 s h1 _; omega
  | succ fuel1 ih =>
    intro fuel2 s h1 h2
    cases fuel2 with
    | zero => omega
    | succ fuel2 =>
      rw [extractLoop, extractLoop]
      cases hstep : extractStep sched s with
      | mk tr orest =>
        cases orest with
        | none => rfl
        | some rest =>
          have hr := extractStep_rest sched s tr rest hstep
          show tr ++ extractLoop sched fuel1 rest = tr ++ extractLoop sched fuel2 rest
          rw [ih fuel2 rest (by omega) (by omega)]

/-- One-step unfolding of `extract_archive`: process one record, then
recurse on the rest of the stream. -/
theorem extract_archive_step (sched : Nat → Nat) (s : List Nat) :
    extract_archive sched s =
      (extractStep sched s).1 ++
        (match (extractStep sched s).2 with
          | none => []
          | some rest => extract_archive sched rest) := by
  show extractLoop sched (s.length + 1) s = _
  rw [extractLoop]
  cases hstep : extractStep sched s with
  | mk tr orest =>
    cases orest with
    | none => simp
    | some rest =>
      have hr := extractStep_rest sched s tr rest hstep
      show tr ++ extractLoop sched s.length rest = tr ++ extract_archive sched rest
      rw [extractLoop_congr sched s.length (rest.length + 1) rest (by omega) (by omega)]
      rfl

/-! ### Encoder output bytes -/

theorem encWrites_append (a b : List EncEv) :
    encWrites (a ++ b) = encWrites a ++ encWrites b := by
  induction a with
  | nil => rfl
  | cons e es ih =>
    cases e <;> simp [encWrites, ih]

theorem encWrites_map_write (chunks : List (List Nat)) :
    encWrites (chunks.map EncEv.evWrite) = chunks.flatten := by
  induction chunks with
  | nil => rfl
  | cons c cs ih => simp [encWrites, ih]

/-- A successfully encoded entry writes exactly the record: 4-byte
big-endian name length, name bytes, 8-byte big-endian stat size, then
exactly `statSize` content bytes. -/
theorem encodeEntry_writes (sched : Nat → Nat) (f : SrcFile)
    (h : f.statSize ≤ f.data.length) :
    encWrites (encodeEntry sched f).1
      = toBytesBE 4 f.name.length ++ f.name ++ toBytesBE 8 f.statSize
          ++ f.data.take f.statSize
    ∧ (encodeEntry sched f).2 = false := by
  obtain ⟨h1, h2, h3⟩ := copyLoop_success sched f.statSize 0 f.data f.statSize le_rfl h
  constructor
  · show encWrites ([EncEv.evOpen f.name, EncEv.evWrite (toBytesBE 4 f.name.length),
      EncEv.evWrite f.name, EncEv.evWrite (toBytesBE 8 f.statSize)]
        ++ (copyLoop sched f.statSize 0 f.data f.statSize).1.map EncEv.evWrite
        ++ _) = _
    rw [encWrites_append, encWrites_append, encWrites_map_write, h1, h3]
    simp [encWrites]
  · exact h3

/-! ### Decoding one well-formed record -/

theorem pow_256_4 : (256 : Nat) ^ 4 = 2 ^ 32 := by norm_num

theorem pow_256_8 : (256 : Nat) ^ 8 = 2 ^ 64 := by norm_num

/-- Parsing one well-formed record: the decoder creates the named file,
writes the content through the transfer loop, closes it, and continues
with the rest of the stream. -/
theorem extractStep_record (sched : Nat → Nat) (name data rest : List Nat)
    (hne : name ≠ []) (hlen : name.length < 2 ^ 32) (hutf : validUtf8 name = true)
    (hsz : data.length < 2 ^ 64) :
    extractStep sched
        (toBytesBE 4 name.length ++ (name ++ (toBytesBE 8 data.length ++ (data ++ rest))))
      = (ExtEv.evCreate name ::
          (copyLoop sched data.length 0 (data ++ rest) data.length).1.map ExtEv.evWriteF
          ++ [ExtEv.evCloseF], some rest) := by
  have h32 : name.length < 256 ^ 4 := by rw [pow_256_4]; exact hlen
  have h64 : data.length < 256 ^ 8 := by rw [pow_256_8]; exact hsz
  have htake4 :
      (toBytesBE 4 name.length ++ (name ++ (toBytesBE 8 data.length ++ (data ++ rest)))).take 4
        = toBytesBE 4 name.length := List.take_left' (toBytesBE_length 4 name.length)
  have hdrop4 :
      (toBytesBE 4 name.length ++ (name ++ (toBytesBE 8 data.length ++ (data ++ rest)))).drop 4
        = name ++ (toBytesBE 8 data.length ++ (data ++ rest)) :=
    List.drop_left' (toBytesBE_length 4 name.length)
  have hfrom4 : fromBytesBE (toBytesBE 4 name.length) = name.length :=
    fromBytesBE_toBytesBE 4 name.length h32
  have htakeN : (name ++ (toBytesBE 8 data.length ++ (data ++ rest))).take name.length = name :=
    List.take_left' rfl
  have hdropN : (name ++ (toBytesBE 8 data.length ++ (data ++ rest))).drop name.length
      = toBytesBE 8 data.length ++ (data ++ rest) := List.drop_left' rfl
  have htake8 : (toBytesBE 8 data.length ++ (data ++ rest)).take 8 = toBytesBE 8 data.length :=
    List.take_left' (toBytesBE_length 8 data.length)
  have hdrop8 : (toBytesBE 8 data.length ++ (data ++ rest)).drop 8 = data ++ rest :=
    List.drop_left' (toBytesBE_length 8 data.length)
  have hfrom8 : fromBytesBE (toBytesBE 8 data.length) = data.length :=
    fromBytesBE_toBytesBE 8 data.length h64
  have hnl : ¬ name.length ≤ 0 := by
    have : name.length ≠ 0 := fun h0 => hne (List.length_eq_zero.mp h0)
    omega
  obtain ⟨hc1, hc2, hc3⟩ := copyLoop_success sched data.length 0 (data ++ rest)
    data.length le_rfl (by simp)
  simp only [extractStep, read_exact_spec, htake4, hdrop4, hfrom4, htakeN, hdropN,
    htake8, hdrop8, hfrom8, toBytesBE_length]
  rw [if_neg (by simp), if_neg (by simp), if_neg hnl, if_neg (by simp [List.length_take]),
    if_pos hutf, if_neg (by simp), if_neg (by simp [Int.natCast_nonneg]),
    if_neg (by rw [hc3]; simp)]
  rw [hc2]
  rw [List.drop_left' rfl]

/-- Parsing a record whose declared content length exceeds the bytes the
stream still holds: the decoder creates the file, writes everything
available, closes the descriptor and dies with the unexpected-EOF error. -/
theorem extractStep_truncated (sched : Nat → Nat) (name data : List Nat) (size : Nat)
    (hne : name ≠ []) (hlen : name.length < 2 ^ 32) (hutf : validUtf8 name = true)
    (hsz : size < 2 ^ 64) (hlt : data.length < size) :
    extractStep sched (toBytesBE 4 name.length ++ (name ++ (toBytesBE 8 size ++ data)))
      = (ExtEv.evCreate name :: ((copyLoop sched size 0 data size).1.map ExtEv.evWriteF
          ++ [ExtEv.evCloseF, ExtEv.evDieX XErr.eofInData]), none) := by
  have h32 : name.length < 256 ^ 4 := by rw [pow_256_4]; exact hlen
  have h64 : size < 256 ^ 8 := by rw [pow_256_8]; exact hsz
  have htake4 :
      (toBytesBE 4 name.length ++ (name ++ (toBytesBE 8 size ++ data))).take 4
        = toBytesBE 4 name.length := List.take_left' (toBytesBE_length 4 name.length)
  have hdrop4 :
      (toBytesBE 4 name.length ++ (name ++ (toBytesBE 8 size ++ data))).drop 4
        = name ++ (toBytesBE 8 size ++ data) :=
    List.drop_left' (toBytesBE_length 4 name.length)
  have hfrom4 : fromBytesBE (toBytesBE 4 name.length) = name.length :=
    fromBytesBE_toBytesBE 4 name.length h32
  have htakeN : (name ++ (toBytesBE 8 size ++ data)).take name.length = name :=
    List.take_left' rfl
  have hdropN : (name ++ (toBytesBE 8 size ++ data)).drop name.length
      = toBytesBE 8 size ++ data := List.drop_left' rfl
  have htake8 : (toBytesBE 8 size ++ data).take 8 = toBytesBE 8 size :=
    List.take_left' (toBytesBE_length 8 size)
  have hdrop8 : (toBytesBE 8 size ++ data).drop 8 = data :=
    List.drop_left' (toBytesBE_length 8 size)
  have hfrom8 : fromBytesBE (toBytesBE 8 size) = size :=
    fromBytesBE_toBytesBE 8 size h64
  have hnl : ¬ name.length ≤ 0 := by
    have : name.length ≠ 0 := fun h0 => hne (List.length_eq_zero.mp h0)
    omega
  obtain ⟨-, hc⟩ := copyLoop_fail sched size 0 data size le_rfl hlt
  simp only [extractStep, read_exact_spec, htake4, hdrop4, hfrom4, htakeN, hdropN,
    htake8, hdrop8, hfrom8, toBytesBE_length]
  rw [if_neg (by simp), if_neg (by simp), if_neg hnl, if_neg (by simp [List.length_take]),
    if_pos hutf, if_neg (by simp), if_neg (by simp [Int.natCast_nonneg]),
    if_pos hc]
  rfl

/-! ### Filesystem replay -/

theorem fsRun_create (acc : List (List Nat × List Nat)) (name : List Nat)
    (es : List ExtEv) :
    fsRun acc (ExtEv.evCreate name :: es) = fsRun ((name, []) :: acc) es := rfl

theorem fsRun_closeF (acc : List (List Nat × List Nat)) (es : List ExtEv) :
    fsRun acc (ExtEv.evCloseF :: es) = fsRun acc es := rfl

theorem fsRun_dieX (acc : List (List Nat × List Nat)) (e : XErr) (es : List ExtEv) :
    fsRun acc (ExtEv.evDieX e :: es) = fsRun acc es := rfl

theorem fsRun_map_writeF (t : List (List Nat × List Nat)) (n c : List Nat)
    (chunks : List (List Nat)) (es : List ExtEv) :
    fsRun ((n, c) :: t) (chunks.map ExtEv.evWriteF ++ es)
      = fsRun ((n, c ++ chunks.flatten) :: t) es := by
  induction chunks generalizing c with
  | nil => simp [fsRun]
  | cons ch chs ih =>
    simp only [List.map_cons, List.cons_append, fsRun, List.flatten_cons, List.append_eq]
    rw [ih (c ++ ch)]
    rw [List.append_assoc]

/-! ### Unreachability of the invalid-size branch -/

/-- No single decode step ever emits the invalid-file-size error: the
8-byte size field is decoded unsigned, so the `size < 0` test cannot
succeed. -/
theorem extractStep_count_invalidSize (sched : Nat → Nat) (s : List Nat) :
    (extractStep sched s).1.count (ExtEv.evDieX XErr.invalidSize) = 0 := by
  simp only [extractStep, read_exact_spec]
  split_ifs with h1 h2 h3 h4 h5 h6 h7 h8
  · rfl
  · decide
  · decide
  · decide
  · decide
  · exact absurd h7 (by omega)
  · refine List.count_eq_zero.mpr ?_
    simp
  · refine List.count_eq_zero.mpr ?_
    simp
  · decide

theorem extractLoop_count_invalidSize (sched : Nat → Nat) :
    ∀ (fuel : Nat) (s : List Nat),
      (extractLoop sched fuel s).count (ExtEv.evDieX XErr.invalidSize) = 0 := by
  intro fuel
  induction fuel with
  | zero => intro s; rfl
  | succ fuel ih =>
    intro s
    rw [extractLoop]
    cases hstep : extractStep sched s with
    | mk tr orest =>
      have hc := extractStep_count_invalidSize sched s
      rw [hstep] at hc
      cases orest with
      | none => exact hc
      | some rest =>
        show (tr ++ extractLoop sched fuel rest).count _ = 0
        rw [List.count_append]
        have : tr.count (ExtEv.evDieX XErr.invalidSize) = 0 := hc
        rw [this, ih rest]

/-! ### The round trip -/

/-- Main induction for the round trip: decoding the encoder's output
replays, on top of any already-created files `acc`, exactly the encoded
files in order. -/
theorem roundtrip_go (schedX : Nat → Nat) :
    ∀ (files : List SrcFile) (scheds : Nat → Nat → Nat)
      (acc : List (List Nat × List Nat)), (∀ f ∈ files, WF f) →
      fsRun acc (extract_archive schedX (encWrites (create_archive scheds files)))
        = acc.reverse ++ files.map (fun f => (f.name, f.data)) := by
  intro files
  induction files with
  | nil =>
    intro scheds acc _
    simp [create_archive, encWrites, extract_archive, extractLoop, extractStep,
      read_exact_spec, fsRun]
  | cons f rest ih =>
    intro scheds acc h
    obtain ⟨hne, h32, hutf, hstat, h64⟩ := h f (List.mem_cons_self f rest)
    have hrest : ∀ g ∈ rest, WF g := fun g hg => h g (List.mem_cons_of_mem f hg)
    obtain ⟨hw, hfail⟩ := encodeEntry_writes (scheds 0) f (le_of_eq hstat)
    have hcreate : create_archive scheds (f :: rest)
        = (encodeEntry (scheds 0) f).1 ++ create_archive (fun i => scheds (i + 1)) rest := by
      simp only [create_archive, hfail]
      simp
    rw [hcreate, encWrites_append, hw, hstat, List.take_length]
    simp only [List.append_assoc]
    rw [extract_archive_step]
    rw [extractStep_record schedX f.name f.data _ hne h32 hutf (hstat ▸ h64)]
    obtain ⟨hc1, hc2, hc3⟩ := copyLoop_success schedX f.data.length 0
      (f.data ++ encWrites (create_archive (fun i => scheds (i + 1)) rest))
      f.data.length le_rfl (by simp)
    simp only [List.cons_append, List.append_assoc]
    rw [fsRun_create]
    rw [fsRun_map_writeF]
    rw [hc1, List.take_left' rfl]
    simp only [List.nil_append, List.singleton_append]
    rw [fsRun_closeF]
    rw [ih (fun i => scheds (i + 1)) ((f.name, f.data) :: acc) hrest]
    simp [List.append_assoc]

/-! ### The claims -/

/-- C1: For every finite list of files (each a name and byte content),
encoding them with the encoder and then decoding the resulting byte stream
with the decoder reproduces, for every file, byte-identical content under
the identical name, and materializes the files in the original order.
Holds for arbitrary kernel read schedules on both sides, for well-formed
inputs (nonempty valid-UTF-8 names below the 4-byte field limit, stat size
matching the readable length and below the 8-byte field limit). -/
theorem claim1_round_trip (scheds : Nat → Nat → Nat) (schedX : Nat → Nat)
    (files : List SrcFile) (h : ∀ f ∈ files, WF f) :
    filesOnDisk (extract_archive schedX (encWrites (create_archive scheds files)))
      = files.map (fun f => (f.name, f.data)) := by
  have := roundtrip_go schedX files scheds [] h
  simpa [filesOnDisk] using this

theorem claim1_round_trip_witness :
    WF (⟨[97], 2, [10, 20]⟩ : SrcFile) ∧ WF (⟨[98, 99], 0, []⟩ : SrcFile) ∧
      filesOnDisk (extract_archive (fun _ => 3) (encWrites (create_archive (fun _ _ => 7)
        [(⟨[97], 2, [10, 20]⟩ : SrcFile), ⟨[98, 99], 0, []⟩])))
        = [([97], [10, 20]), ([98, 99], [])] :=
  ⟨by decide, by decide,
    claim1_round_trip (fun _ _ => 7) (fun _ => 3)
      [(⟨[97], 2, [10, 20]⟩ : SrcFile), ⟨[98, 99], 0, []⟩] (by decide)⟩

/-- C2: For every path the encoder processes, the bytes it emits for that
record are exactly: the 4-byte big-endian unsigned encoding of the byte
length of the path's UTF-8 encoding, followed by those UTF-8 name bytes,
followed by the 8-byte big-endian unsigned encoding of the file's size as
obtained from the metadata query, followed by exactly that many content
bytes.  The last two conjuncts confirm the length fields really are the
big-endian encodings of those values (they decode back to them), and that
exactly `statSize` content bytes follow. -/
theorem claim2_record_layout (sched : Nat → Nat) (f : SrcFile)
    (h1 : f.statSize ≤ f.data.length) (h2 : f.name.length < 2 ^ 32)
    (h3 : f.statSize < 2 ^ 64) :
    encWrites (encodeEntry sched f).1
      = toBytesBE 4 f.name.length ++ f.name ++ toBytesBE 8 f.statSize
          ++ f.data.take f.statSize
    ∧ (f.data.take f.statSize).length = f.statSize
    ∧ fromBytesBE (toBytesBE 4 f.name.length) = f.name.length
    ∧ fromBytesBE (toBytesBE 8 f.statSize) = f.statSize := by
  refine ⟨(encodeEntry_writes sched f h1).1, ?_, ?_, ?_⟩
  · rw [List.length_take]
    omega
  · exact fromBytesBE_toBytesBE 4 f.name.length (by rw [pow_256_4]; exact h2)
  · exact fromBytesBE_toBytesBE 8 f.statSize (by rw [pow_256_8]; exact h3)

theorem claim2_record_layout_witness :
    encWrites (encodeEntry (fun _ => 9) (⟨[97], 2, [5, 6, 7]⟩ : SrcFile)).1
      = [0, 0, 0, 1, 97, 0, 0, 0, 0, 0, 0, 0, 2, 5, 6] :=
  (claim2_record_layout (fun _ => 9) (⟨[97], 2, [5, 6, 7]⟩ : SrcFile)
    (by decide) (by decide) (by decide)).1.trans (by decide)

/-- C3: When the decoder begins reading a record's 4-byte name-length
field: if zero bytes are available it terminates the loop successfully
(normal end-of-stream, empty trace), and if between 1 and 3 bytes are
available it fails with the "incomplete filename length" corruption error;
end-of-stream is accepted only exactly at a record boundary. -/
theorem claim3_eof_at_boundary (sched : Nat → Nat) (s : List Nat) :
    (s = [] → extract_archive sched s = []) ∧
    (1 ≤ s.length → s.length ≤ 3 →
      extract_archive sched s = [ExtEv.evDieX XErr.incompleteNameLen]) := by
  constructor
  · rintro rfl
    simp [extract_archive, extractLoop, extractStep, read_exact_spec]
  · intro hlo hhi
    rw [extract_archive_step]
    have hstep : extractStep sched s = ([ExtEv.evDieX XErr.incompleteNameLen], none) := by
      simp only [extractStep, read_exact_spec]
      rw [List.take_of_length_le (by omega)]
      rw [if_neg (by omega), if_pos (by omega)]
    rw [hstep]
    simp

theorem claim3_eof_at_boundary_witness :
    extract_archive (fun _ => 5) [] = []
    ∧ extract_archive (fun _ => 5) [0, 0] = [ExtEv.evDieX XErr.incompleteNameLen] :=
  ⟨(claim3_eof_at_boundary (fun _ => 5) []).1 rfl,
    (claim3_eof_at_boundary (fun _ => 5) [0, 0]).2 (by decide) (by decide)⟩

/-- C4: For every input stream whose next record's name_length field
decodes to 0, the decoder rejects it with the "invalid filename length"
corruption error, whatever the remaining bytes are — even if they would
otherwise form a well-formed record. -/
theorem claim4_zero_name_length (sched : Nat → Nat) (rest : List Nat) :
    extract_archive sched (0 :: 0 :: 0 :: 0 :: rest)
      = [ExtEv.evDieX XErr.invalidNameLen] := by
  rw [extract_archive_step]
  have h4 : List.take 4 (0 :: 0 :: 0 :: 0 :: rest) = [0, 0, 0, 0] := rfl
  have hstep : extractStep sched (0 :: 0 :: 0 :: 0 :: rest)
      = ([ExtEv.evDieX XErr.invalidNameLen], none) := by
    simp only [extractStep, read_exact_spec, h4]
    rw [if_neg (by decide), if_neg (by decide), if_pos (by decide)]
  rw [hstep]
  simp

/-- C5: For every record whose declared content_length exceeds the number
of content bytes actually available in the stream, the decoder aborts with
the "unexpected EOF" corruption error after having written exactly the
available bytes to the created output file, and the partially written
output file is left on disk (the replayed filesystem still holds it; no
event ever deletes a file). -/
theorem claim5_truncated_content (sched : Nat → Nat) (name data : List Nat)
    (size : Nat) (hne : name ≠ []) (h32 : name.length < 2 ^ 32)
    (hutf : validUtf8 name = true) (h64 : size < 2 ^ 64)
    (hlt : data.length < size) :
    filesOnDisk (extract_archive sched
        (toBytesBE 4 name.length ++ (name ++ (toBytesBE 8 size ++ data))))
      = [(name, data)]
    ∧ extract_archive sched
        (toBytesBE 4 name.length ++ (name ++ (toBytesBE 8 size ++ data)))
        = (ExtEv.evCreate name ::
            ((copyLoop sched size 0 data size).1.map ExtEv.evWriteF ++ [ExtEv.evCloseF]))
          ++ [ExtEv.evDieX XErr.eofInData] := by
  obtain ⟨hflat, hfail⟩ := copyLoop_fail sched size 0 data size le_rfl hlt
  have htr : extract_archive sched
      (toBytesBE 4 name.length ++ (name ++ (toBytesBE 8 size ++ data)))
      = ExtEv.evCreate name :: ((copyLoop sched size 0 data size).1.map ExtEv.evWriteF
          ++ [ExtEv.evCloseF, ExtEv.evDieX XErr.eofInData]) := by
    rw [extract_archive_step,
      extractStep_truncated sched name data size hne h32 hutf h64 hlt]
    simp
  refine ⟨?_, ?_⟩
  · rw [htr]
    show fsRun [] _ = _
    rw [fsRun_create]
    rw [fsRun_map_writeF, hflat]
    rfl
  · rw [htr]
    simp

theorem claim5_truncated_content_witness :
    filesOnDisk (extract_archive (fun _ => 4096)
        (toBytesBE 4 1 ++ ([97] ++ (toBytesBE 8 100 ++ List.replicate 40 7))))
      = [([97], List.replicate 40 7)]
    ∧ extract_archive (fun _ => 4096)
        (toBytesBE 4 1 ++ ([97] ++ (toBytesBE 8 100 ++ List.replicate 40 7)))
        = (ExtEv.evCreate [97] ::
            ((copyLoop (fun _ => 4096) 100 0 (List.replicate 40 7) 100).1.map ExtEv.evWriteF
              ++ [ExtEv.evCloseF]))
          ++ [ExtEv.evDieX XErr.eofInData] :=
  claim5_truncated_content (fun _ => 4096) [97] (List.replicate 40 7) 100
    (by decide) (by decide) (by decide) (by decide) (by decide)

/-- C6: During encoding, if the source file yields zero bytes before the
declared (stat-time) length has been transferred, the encoder aborts
fatally: the whole archive run stops at this entry, whose trace ends with
`os.close(fd)` immediately followed by the `die` carrying the
unexpected-EOF diagnostic that names the path. -/
theorem claim6_encoder_early_eof (scheds : Nat → Nat → Nat) (f : SrcFile)
    (rest : List SrcFile) (h : f.data.length < f.statSize) :
    create_archive scheds (f :: rest) = (encodeEntry (scheds 0) f).1
    ∧ (encodeEntry (scheds 0) f).1
        = ([EncEv.evOpen f.name, EncEv.evWrite (toBytesBE 4 f.name.length),
            EncEv.evWrite f.name, EncEv.evWrite (toBytesBE 8 f.statSize)]
            ++ (copyLoop (scheds 0) f.statSize 0 f.data f.statSize).1.map EncEv.evWrite)
          ++ [EncEv.evClose, EncEv.evDie (CErr.unexpectedEofReading f.name)] := by
  obtain ⟨-, hfail⟩ := copyLoop_fail (scheds 0) f.statSize 0 f.data f.statSize le_rfl h
  have hf2 : (encodeEntry (scheds 0) f).2 = true := hfail
  constructor
  · simp only [create_archive, hf2]
    simp
  · show ([EncEv.evOpen f.name, EncEv.evWrite (toBytesBE 4 f.name.length),
      EncEv.evWrite f.name, EncEv.evWrite (toBytesBE 8 f.statSize)]
        ++ (copyLoop (scheds 0) f.statSize 0 f.data f.statSize).1.map EncEv.evWrite
        ++ (if (copyLoop (scheds 0) f.statSize 0 f.data f.statSize).2.2 then
              [EncEv.evClose, EncEv.evDie (CErr.unexpectedEofReading f.name)]
            else [EncEv.evClose])) = _
    rw [hfail]
    simp

theorem claim6_encoder_early_eof_witness :
    create_archive (fun _ _ => 3) [(⟨[97], 5, [1, 2]⟩ : SrcFile)]
      = (encodeEntry ((fun _ _ => 3) 0) (⟨[97], 5, [1, 2]⟩ : SrcFile)).1
    ∧ (encodeEntry ((fun _ _ => 3) 0) (⟨[97], 5, [1, 2]⟩ : SrcFile)).1
        = ([EncEv.evOpen [97], EncEv.evWrite (toBytesBE 4 1),
            EncEv.evWrite [97], EncEv.evWrite (toBytesBE 8 5)]
            ++ (copyLoop ((fun _ _ => 3) 0) 5 0 [1, 2] 5).1.map EncEv.evWrite)
          ++ [EncEv.evClose, EncEv.evDie (CErr.unexpectedEofReading [97])] :=
  claim6_encoder_early_eof (fun _ _ => 3) (⟨[97], 5, [1, 2]⟩ : SrcFile) [] (by decide)

/-- C7: Because the decoder interprets the 8-byte content-length field as
an unsigned big-endian integer, the decoded size is never negative, and
the "invalid file size" error branch is unreachable: no decoder run, on
any stream and any read schedule, ever emits it. -/
theorem claim7_invalid_size_unreachable :
    (∀ bs : List Nat, 0 ≤ (fromBytesBE bs : Int)) ∧
    ∀ (sched : Nat → Nat) (s : List Nat),
      (extract_archive sched s).count (ExtEv.evDieX XErr.invalidSize) = 0 := by
  constructor
  · intro bs
    exact Int.natCast_nonneg _
  · intro sched s
    exact extractLoop_count_invalidSize sched (s.length + 1) s

/-- C8: For every zero-length source file, the encoder emits a record with
content_length = 0 and zero content bytes (the content-transfer loop
produces no chunks at all), and decoding that record creates an empty file
under the stored name. -/
theorem claim8_empty_file (schedE schedX : Nat → Nat) (f : SrcFile)
    (hdata : f.data = []) (hsize : f.statSize = 0) (hne : f.name ≠ [])
    (h32 : f.name.length < 2 ^ 32) (hutf : validUtf8 f.name = true) :
    encWrites (encodeEntry schedE f).1
      = toBytesBE 4 f.name.length ++ f.name ++ toBytesBE 8 0
    ∧ (copyLoop schedE f.statSize 0 f.data f.statSize).1 = []
    ∧ filesOnDisk (extract_archive schedX (encWrites (encodeEntry schedE f).1))
        = [(f.name, [])] := by
  have hwf : WF f := ⟨hne, h32, hutf, by rw [hsize, hdata]; rfl, by rw [hsize]; positivity⟩
  obtain ⟨hw, hfail⟩ := encodeEntry_writes schedE f (by rw [hsize]; exact Nat.zero_le _)
  have hrec : encWrites (encodeEntry schedE f).1
      = toBytesBE 4 f.name.length ++ f.name ++ toBytesBE 8 0 := by
    rw [hw, hsize]
    simp
  refine ⟨hrec, ?_, ?_⟩
  · rw [hsize]
    rfl
  · have hcreate : create_archive (fun _ => schedE) [f] = (encodeEntry schedE f).1 := by
      simp only [create_archive, hfail]
      simp
    have := roundtrip_go schedX [f] (fun _ => schedE) []
      (by intro g hg; rw [List.mem_singleton] at hg; rw [hg]; exact hwf)
    rw [hcreate] at this
    simpa [filesOnDisk, hdata] using this

theorem claim8_empty_file_witness :
    encWrites (encodeEntry (fun _ => 2) (⟨[97], 0, []⟩ : SrcFile)).1
      = toBytesBE 4 1 ++ [97] ++ toBytesBE 8 0
    ∧ (copyLoop (fun _ => 2) 0 0 [] 0).1 = []
    ∧ filesOnDisk (extract_archive (fun _ => 6)
        (encWrites (encodeEntry (fun _ => 2) (⟨[97], 0, []⟩ : SrcFile)).1))
        = [([97], [])] :=
  claim8_empty_file (fun _ => 2) (fun _ => 6) (⟨[97], 0, []⟩ : SrcFile)
    (by decide) (by decide) (by decide) (by decide) (by decide)

/-- C9: In the content-transfer loop `copyLoop` — the loop used by both
`encodeEntry` (encoder, `os.read(fd, min(BUF_SIZE, remaining))`) and
`extractStep` (decoder, same read call) — every single chunk has length at
most `min BUF_SIZE remaining`, in particular at most the fixed buffer size
`BUF_SIZE = 4096`, regardless of the record's content length. -/
theorem claim9_bounded_chunks (sched : Nat → Nat) (fuel i : Nat) (src : List Nat)
    (remaining : Nat) (c : List Nat)
    (hc : c ∈ (copyLoop sched fuel i src remaining).1) :
    c.length ≤ BUF_SIZE ∧ c.length ≤ min BUF_SIZE remaining :=
  ⟨le_trans (copyLoop_chunk_le sched fuel i src remaining c hc) (min_le_left _ _),
    copyLoop_chunk_le sched fuel i src remaining c hc⟩

theorem claim9_bounded_chunks_witness :
    [1] ∈ (copyLoop (fun _ => 1) 2 0 [1, 2] 2).1
    ∧ ([1] : List Nat).length ≤ BUF_SIZE
    ∧ ([1] : List Nat).length ≤ min BUF_SIZE 2 :=
  ⟨by decide,
    (claim9_bounded_chunks (fun _ => 1) 2 0 [1, 2] 2 [1] (by decide)).1,
    (claim9_bounded_chunks (fun _ => 1) 2 0 [1, 2] 2 [1] (by decide)).2⟩

/-- C10: For every stream and every n, the helper `read_exact` returns a
byte string that is a prefix of the stream's remaining bytes (its first
`n` bytes) with length equal to min(n, number of bytes available): exactly
`n` bytes unless end-of-stream is reached first, and never more than `n`
bytes — for every kernel read schedule. -/
theorem claim10_read_exact (sched : Nat → Nat) (s : List Nat) (n : Nat) :
    read_exact sched s n = (s.take n, s.drop n)
    ∧ (read_exact sched s n).1.length = min n s.length := by
  refine ⟨read_exact_spec sched s n, ?_⟩
  rw [read_exact_spec]
  exact List.length_take n s

end Mytar
